import Mathlib

/-!
# Verification of the domina puzzle solver (`src/main.py`)

Shallow embedding of the Sokoban-style configuration-space builder.  Python
integers are `Int`; Python `list` indexing (which accepts one round of
negative wrap-around and raises `IndexError` otherwise) is `pyIdx`/`pyGet`;
code that can raise returns `Option`.  Python `set`/`frozenset` values whose
identity matters (box sets, state identity) are `Finset`; where the source
iterates over a set we fix a deterministic order (the coordinate-lexicographic
sort for boxes, the literal textual order for the four neighbours), which is a
legitimate refinement of CPython's unspecified hash order: every result we
prove about is either itself a set, or independent of that order on the
concrete inputs used.
-/

/-- Coordinate pair; `x` is the row index and `y` the column index, exactly as
`Position` in the source (structural equality / hash). -/
structure Position where
  x : Int
  y : Int
deriving DecidableEq, Repr

/-- The four orthogonal neighbours of a cell, in the textual order of the
source's set literal (`Position.neighbours`). -/
def Position.neighbours (p : Position) : List Position :=
  [⟨p.x + 1, p.y⟩, ⟨p.x - 1, p.y⟩, ⟨p.x, p.y + 1⟩, ⟨p.x, p.y - 1⟩]

/-- Coordinate-lexicographic order on positions, used to fix an iteration
order for the source's `for box in self.boxes` loops. -/
def posLe (p q : Position) : Prop :=
  p.x < q.x ∨ (p.x = q.x ∧ p.y ≤ q.y)

instance : DecidableRel posLe := fun p q =>
  inferInstanceAs (Decidable (p.x < q.x ∨ (p.x = q.x ∧ p.y ≤ q.y)))

instance : IsTrans Position posLe where
  trans := by
    rintro a b c (h | ⟨h1, h2⟩) (g | ⟨g1, g2⟩)
    · exact Or.inl (lt_trans h g)
    · exact Or.inl (g1 ▸ h)
    · exact Or.inl (h1 ▸ g)
    · exact Or.inr ⟨h1.trans g1, le_trans h2 g2⟩

instance : IsAntisymm Position posLe where
  antisymm := by
    rintro ⟨ax, ay⟩ ⟨bx, by'⟩ (h | ⟨h1, h2⟩) (g | ⟨g1, g2⟩)
    · exact absurd g (not_lt.mpr (le_of_lt h))
    · exact absurd h (by simp [g1] at *; omega)
    · exact absurd g (by simp [h1] at *; omega)
    · simp only [Position.mk.injEq]
      exact ⟨h1, le_antisymm h2 g2⟩

instance : IsTotal Position posLe where
  total := by
    intro a b
    rcases lt_trichotomy a.x b.x with h | h | h
    · exact Or.inl (Or.inl h)
    · rcases le_total a.y b.y with g | g
      · exact Or.inl (Or.inr ⟨h, g⟩)
      · exact Or.inr (Or.inr ⟨h.symm, g⟩)
    · exact Or.inr (Or.inl h)

/-- A move of a box from `prev` to an adjacent cell `to` (`Move` in the
source). -/
structure Move where
  prev : Position
  «to» : Position
deriving DecidableEq, Repr

/-- The cell the pusher must stand on: `Move.opposite_to` from the source,
branching on whether the move is along a row (`to.y == prev.y`). -/
def Move.opposite_to (m : Move) : Position :=
  if m.to.y = m.prev.y then
    ⟨2 * m.prev.x - m.to.x, m.to.y⟩
  else
    ⟨m.to.x, 2 * m.prev.y - m.to.y⟩

/-- A configuration: box set plus player position (`State` in the source;
equality is structural on both components). -/
structure State where
  boxes : Finset Position
  player : Position
deriving DecidableEq

/-- Python list index resolution: one round of negative wrap-around, `none`
for an index that raises `IndexError`. -/
def pyIdx (len : Nat) (i : Int) : Option Nat :=
  let j : Int := if i < 0 then (len : Int) + i else i
  if 0 ≤ j ∧ j < (len : Int) then some j.toNat else none

/-- Python `list.__getitem__` with an integer key. -/
def pyGet {α : Type} (l : List α) (i : Int) : Option α :=
  match pyIdx l.length i with
  | none => none
  | some j => l.get? j

/-- `PuzzleMap.__getitem__` with a `Position` key: row `p.x`, then column
`p.y`. -/
def mapGet (m : List (List Nat)) (p : Position) : Option Nat :=
  match pyGet m p.x with
  | none => none
  | some row => pyGet row p.y

/-- `PuzzleMap.__setitem__` with a `Position` key: fetch row `p.x`, assign at
column `p.y` (both with Python index semantics). -/
def pySetPos (m : List (List Nat)) (p : Position) (v : Nat) :
    Option (List (List Nat)) :=
  match pyIdx m.length p.x with
  | none => none
  | some i =>
    match m.get? i with
    | none => none
    | some row =>
      match pyIdx row.length p.y with
      | none => none
      | some j => some (m.set i (row.set j v))

/-- The puzzle's state as carried on `self`: the static map plus the mutable
box set and player position (`targets` is carried but unused by the core
moves). -/
structure Puzzle where
  puzzle_map : List (List Nat)
  targets : Finset Position
  boxes : Finset Position
  player : Position
deriving DecidableEq

/-- `self.width = len(self.puzzle_map[0])` — the number of columns. -/
def Puzzle.width (pz : Puzzle) : Int :=
  ((pz.puzzle_map.headD []).length : Int)

/-- `self.height = len(self.puzzle_map)` — the number of rows. -/
def Puzzle.height (pz : Puzzle) : Int :=
  ((pz.puzzle_map.length : Nat) : Int)

/-- Enumerate a finite set of positions in coordinate-lexicographic order
(the fixed iteration order for the source's loops over box sets).  Insertion
sort is used because it is structurally recursive, hence kernel-reducible on
concrete inputs. -/
def sortMultiset (s : Multiset Position) : List Position :=
  Quot.liftOn s (fun l => l.insertionSort posLe) fun l₁ l₂ h =>
    List.eq_of_perm_of_sorted
      ((List.perm_insertionSort posLe l₁).trans
        (h.trans (List.perm_insertionSort posLe l₂).symm))
      (List.sorted_insertionSort posLe l₁)
      (List.sorted_insertionSort posLe l₂)

/-- The box set in its fixed iteration order. -/
def sortedBoxes (pz : Puzzle) : List Position :=
  sortMultiset pz.boxes.val

/-- Write `0` at each box position in turn (the loop body of
`Puzzle.collision_map`); `none` if some write raises. -/
def zeroBoxes : List Position → List (List Nat) → Option (List (List Nat))
  | [], m => some m
  | b :: bs, m =>
    match pySetPos m b 0 with
    | none => none
    | some m' => zeroBoxes bs m'

/-- `Puzzle.collision_map`: a copy of the static map with every cell holding a
box overwritten by `0`. -/
def Puzzle.collision_map (pz : Puzzle) : Option (List (List Nat)) :=
  zeroBoxes (sortedBoxes pz) pz.puzzle_map

/-- One read of `self.collision_map[p]` (the property recomputes the map on
every access). -/
def collisionAt (pz : Puzzle) (p : Position) : Option Nat :=
  match pz.collision_map with
  | none => none
  | some m => mapGet m p

/-- The `for neighbour in position.neighbours` body of `is_reachable`: scan
the remaining neighbours, threading the queue; `Sum.inr true` is the early
`return True`, `Sum.inl q` the fall-through with the updated queue, `none` an
`IndexError` from the collision-map read. -/
def scanNeighbours (pz : Puzzle) (target : Position) (checked : Finset Position) :
    List Position → List Position → Option (List Position ⊕ Bool)
  | q, [] => some (Sum.inl q)
  | q, n :: ns =>
    if n ∈ checked ∨ n ∈ q then scanNeighbours pz target checked q ns
    else
      match collisionAt pz n with
      | none => none
      | some v =>
        if v = 0 then scanNeighbours pz target checked q ns
        else if n = target then some (Sum.inr true)
        else scanNeighbours pz target checked (n :: q) ns

/-- The `while queue` loop of `is_reachable`.  The queue is stored reversed
(head = the Python list's tail, where `pop`/`append` operate).  The puzzle is
threaded through and returned so that the absence of writes to `self` is part
of the statement.  `fuel` only bounds the iteration count; it is chosen large
enough in `is_reachable` below. -/
def bfsLoop (target : Position) :
    Nat → Puzzle → List Position → Finset Position → Option (Bool × Puzzle)
  | 0, pz, q, _ =>
    match q with
    | [] => some (false, pz)
    | _ :: _ => none
  | fuel + 1, pz, q, checked =>
    match q with
    | [] => some (false, pz)
    | p :: rest =>
      match scanNeighbours pz target checked rest p.neighbours with
      | none => none
      | some (Sum.inr _) => some (true, pz)
      | some (Sum.inl q') => bfsLoop target fuel pz q' (insert p checked)

/-- An iteration budget that can never be exhausted: the loop expands each
cell at most once and every queued cell has a valid (possibly wrapped) index,
so at most `2·height · 2·width + 1` iterations happen. -/
def Puzzle.fuel (pz : Puzzle) : Nat :=
  4 * pz.puzzle_map.length * (pz.puzzle_map.headD []).length + 2

/-- `Puzzle.is_reachable`: flood fill from `self.player`; `some (b, pz')`
returns the Python result `b` together with the (unchanged) puzzle, `none` is
an `IndexError`. -/
def Puzzle.is_reachable (pz : Puzzle) (target : Position) : Option (Bool × Puzzle) :=
  bfsLoop target pz.fuel pz [pz.player] ∅

/-- `Puzzle.is_valid_move`: the `all((...))` tuple evaluates every clause
eagerly, so each of the three indexing clauses can raise regardless of the
boolean clauses before it. -/
def Puzzle.is_valid_move (pz : Puzzle) (m : Move) : Option Bool :=
  match mapGet pz.puzzle_map m.to with
  | none => none
  | some v =>
    match mapGet pz.puzzle_map m.opposite_to with
    | none => none
    | some u =>
      match pz.is_reachable m.opposite_to with
      | none => none
      | some (r, _) =>
        some (decide ((0 ≤ m.to.x ∧ m.to.x < pz.width) ∧
          (0 ≤ m.to.y ∧ m.to.y < pz.height) ∧
          m.to ∉ pz.boxes ∧ v ≠ 0 ∧ u ≠ 0 ∧
          m.opposite_to ∉ pz.boxes ∧ r = true))

/-- The body of `get_possible_positions_for_box`: keep the neighbours whose
move passes `is_valid_move`; any raising call aborts the comprehension. -/
def filterValid (pz : Puzzle) (b : Position) : List Position → Option (List Position)
  | [] => some []
  | d :: ds =>
    match pz.is_valid_move ⟨b, d⟩ with
    | none => none
    | some true =>
      match filterValid pz b ds with
      | none => none
      | some l => some (d :: l)
    | some false => filterValid pz b ds

/-- `Puzzle.get_possible_positions_for_box`. -/
def Puzzle.get_possible_positions_for_box (pz : Puzzle) (b : Position) :
    Option (List Position) :=
  filterValid pz b b.neighbours

/-- `states.add(...)` on a Python set, as a duplicate-free list. -/
def addState (l : List State) (s : State) : List State :=
  if s ∈ l then l else l ++ [s]

/-- The successor configuration generated for pushing the box at `b` to `d`:
box set `(self.boxes - {box}) | {box_move}`, player at the box's former
cell. -/
def mkSucc (pz : Puzzle) (b d : Position) : State :=
  ⟨insert d (pz.boxes.erase b), b⟩

/-- The `for box in self.boxes` loop of `get_possible_states`, iterating in
the fixed sorted order and accumulating the `states` set. -/
def gpsAux (pz : Puzzle) : List Position → List State → Option (List State)
  | [], acc => some acc
  | b :: bs, acc =>
    match pz.get_possible_positions_for_box b with
    | none => none
    | some ds =>
      gpsAux pz bs (ds.foldl (fun a d => addState a (mkSucc pz b d)) acc)

/-- `Puzzle.get_possible_states`: the set of single-push successors of the
current configuration, as a duplicate-free list. -/
def Puzzle.get_possible_states (pz : Puzzle) : Option (List State) :=
  gpsAux pz (sortedBoxes pz) []

/-- The `self.state = state` setter: install a configuration's box set and
player on the puzzle. -/
def stepPz (pz : Puzzle) (s : State) : Puzzle :=
  { pz with boxes := s.boxes, player := s.player }

/-- The configuration currently on `self` (the `state` property). -/
def Puzzle.state (pz : Puzzle) : State :=
  ⟨pz.boxes, pz.player⟩

/-- The `self.states` dict: association list from configuration to its
recorded successor list, in insertion order. -/
abbrev Graph : Type := List (State × List State)

/-- The keys of the `states` dict. -/
def keysG (g : Graph) : List State :=
  g.map Prod.fst

/-- Dict lookup. -/
def lookupG : Graph → State → Option (List State)
  | [], _ => none
  | (k, v) :: rest, s => if k = s then some v else lookupG rest s

/-- Dict assignment `self.states[k] = v`: overwrite in place or append. -/
def dsetG : Graph → State → List State → Graph
  | [], k, v => [(k, v)]
  | (k', v') :: rest, k, v =>
    if k' = k then (k, v) :: rest else (k', v') :: dsetG rest k v

/-- Membership test `state not in self.states` (dict key membership). -/
def memG (g : Graph) (s : State) : Prop :=
  s ∈ keysG g

instance (g : Graph) (s : State) : Decidable (memG g s) :=
  inferInstanceAs (Decidable (s ∈ keysG g))

/-- The enqueue loop of `traverse_states`: append each successor not already
queued and not already a dict key.  The queue is stored reversed (head = the
Python list's tail). -/
def enqueue (g : Graph) : List State → List State → List State
  | q, [] => q
  | q, t :: ts => enqueue g (if t ∈ q ∨ memG g t then q else t :: q) ts

/-- `Puzzle.traverse_states`, fuelled, also returning the list of
configurations expanded by the loop in order (the instrumentation used to
state that no configuration is expanded twice).  Each iteration pops the
Python list's tail, installs the popped configuration, computes its
successors, records them, and enqueues the fresh ones. -/
def traverse_states (pz : Puzzle) :
    Nat → Graph → List State → Option (Graph × List State)
  | 0, g, q =>
    match q with
    | [] => some (g, [])
    | _ :: _ => none
  | fuel + 1, g, q =>
    match q with
    | [] => some (g, [])
    | s :: q =>
      match (stepPz pz s).get_possible_states with
      | none => none
      | some succs =>
        match traverse_states pz fuel (dsetG g s succs)
            (enqueue (dsetG g s succs) q succs) with
        | none => none
        | some (gf, log) => some (gf, s :: log)

/-- The graph seeding of `Puzzle.__init__`:
`self.states = {State(self.boxes, self.player): possible_states}` and
`self.state_queue = list(self.get_possible_states())`. -/
def initStates (pz : Puzzle) : Option (Graph × List State) :=
  match pz.get_possible_states with
  | none => none
  | some s0 => some ([(pz.state, s0)], s0.reverse)

/-- A full run: `Puzzle.__init__`'s seeding followed by
`puzzle.traverse_states()`. -/
def buildGraph (pz : Puzzle) (fuel : Nat) : Option (Graph × List State) :=
  match initStates pz with
  | none => none
  | some (g0, q0) => traverse_states pz fuel g0 q0

/-- The 2-row × 3-column all-floor grid with a box at `(1,1)` and the player
at `(0,0)`: a well-formed puzzle state (box and player on floor cells within
bounds) on a non-walled grid. -/
def pzC6 : Puzzle :=
  { puzzle_map := [[1, 1, 1], [1, 1, 1]],
    targets := ∅, boxes := {⟨1, 1⟩}, player := ⟨0, 0⟩ }

/-- A 3×3 grid whose only floor cell is the centre, with the player standing
there and no boxes. -/
def pzC3 : Puzzle :=
  { puzzle_map := [[0, 0, 0], [0, 1, 0], [0, 0, 0]],
    targets := ∅, boxes := ∅, player := ⟨1, 1⟩ }

/-- The spec's end-to-end scenario: a 3×3 open room surrounded by border
walls (so a 5×5 grid), a single box at the centre of the room, the target one
cell to its right and the player one cell to its left.  The spec names the
cells by their room-relative coordinates `(1,1)`, `(1,2)`, `(1,0)`; in
absolute grid coordinates these are `(2,2)`, `(2,3)`, `(2,1)`. -/
def pzC4 : Puzzle :=
  { puzzle_map := [[0, 0, 0, 0, 0], [0, 1, 1, 1, 0], [0, 1, 1, 1, 0],
      [0, 1, 1, 1, 0], [0, 0, 0, 0, 0]],
    targets := {⟨2, 3⟩}, boxes := {⟨2, 2⟩}, player := ⟨2, 1⟩ }

/-- The successor list the code actually produces for `pzC4` (pushes down,
up and left — the player walks around the box — but not the spec's expected
rightward push). -/
def c4Produced : List State :=
  [⟨{⟨3, 2⟩}, ⟨2, 2⟩⟩, ⟨{⟨1, 2⟩}, ⟨2, 2⟩⟩, ⟨{⟨2, 1⟩}, ⟨2, 2⟩⟩]

/-- The single successor the spec's scenario demands: box pushed rightward to
`(2,3)`, player on the box's former cell `(2,2)`. -/
def c4Expected : State :=
  ⟨{⟨2, 3⟩}, ⟨2, 2⟩⟩

/-- Formalisation of the spec's wording of being inside the grid: the row
index below the number of rows, the column index below the number of
columns. -/
def specInBounds (pz : Puzzle) (p : Position) : Prop :=
  0 ≤ p.x ∧ p.x < pz.height ∧ 0 ≤ p.y ∧ p.y < pz.width

/-- Formalisation of the spec's wording of a floor cell: the static map holds
a nonzero entry there. -/
def specFloor (pz : Puzzle) (p : Position) : Prop :=
  ∃ v, mapGet pz.puzzle_map p = some v ∧ v ≠ 0

/-- Formalisation of one walking step of the pusher per the spec: onto an
adjacent in-bounds floor cell not occupied by any current box. -/
def specStep (pz : Puzzle) (p q : Position) : Prop :=
  q ∈ p.neighbours ∧ specInBounds pz q ∧ specFloor pz q ∧ q ∉ pz.boxes

/-- Formalisation of the spec's clause 6, "the pusher can reach the cell":
the reflexive-transitive closure of walking steps, so a target equal to the
start is trivially reachable. -/
def specReachable (pz : Puzzle) (src tgt : Position) : Prop :=
  Relation.ReflTransGen (specStep pz) src tgt

/-- The six legality clauses exactly as the spec states them, in order:
destination in bounds, destination unoccupied, destination a floor cell,
opposite cell a floor cell, opposite cell unoccupied, opposite cell reachable
by the pusher. -/
def specLegalMove (pz : Puzzle) (m : Move) : Prop :=
  specInBounds pz m.to ∧ m.to ∉ pz.boxes ∧ specFloor pz m.to ∧
    specFloor pz m.opposite_to ∧ m.opposite_to ∉ pz.boxes ∧
    specReachable pz pz.player m.opposite_to

instance (pz : Puzzle) (p : Position) : Decidable (specInBounds pz p) :=
  inferInstanceAs (Decidable (0 ≤ p.x ∧ p.x < pz.height ∧ 0 ≤ p.y ∧ p.y < pz.width))

/-- One legal push between configurations, as decided by the code itself:
`b` is among the successors the generator returns for `a`. -/
def SuccRel (pz : Puzzle) (a b : State) : Prop :=
  ∃ S, (stepPz pz a).get_possible_states = some S ∧ b ∈ S

/-- A configuration reachable from the initial configuration by a sequence of
legal pushes. -/
def ReachState (pz : Puzzle) (s : State) : Prop :=
  Relation.ReflTransGen (SuccRel pz) pz.state s

/-- Resolution of a Python list index that is within the accepted range:
negative indices count from the far end. -/
theorem pyIdx_in_range (len : Nat) (i : Int) (h1 : -(len : Int) ≤ i)
    (h2 : i < (len : Int)) :
    pyIdx len i = some (if i < 0 then ((len : Int) + i).toNat else i.toNat) := by
  simp only [pyIdx]
  split_ifs with hneg hok hok
  · rfl
  · exfalso; omega
  · rfl
  · exfalso; omega

/-- C7: for every Move whose `to` cell is orthogonally adjacent to its `prev`
cell, `opposite_to` is the point-reflection of `to` through `prev` along the
shared axis (the mirror of `to` about `prev`). -/
theorem opposite_to_point_reflection (m : Move) (h : m.to ∈ m.prev.neighbours) :
    m.opposite_to = ⟨2 * m.prev.x - m.to.x, 2 * m.prev.y - m.to.y⟩ := by
  rcases m with ⟨⟨px, py⟩, ⟨tx, ty⟩⟩
  simp only [Position.neighbours, List.mem_cons, List.not_mem_nil, or_false,
    Position.mk.injEq] at h
  simp only [Move.opposite_to]
  rcases h with ⟨h1, h2⟩ | ⟨h1, h2⟩ | ⟨h1, h2⟩ | ⟨h1, h2⟩ <;> subst h1 <;> subst h2 <;>
    split <;> simp only [Position.mk.injEq] <;> (try simp_all) <;> omega

/-- Witness for C7 at the spec's example: `prev=(2,2)`, `to=(2,3)` is
adjacent and gives `opposite_to=(2,1)`. -/
theorem opposite_to_point_reflection_witness :
    (⟨2, 3⟩ : Position) ∈ (⟨2, 2⟩ : Position).neighbours ∧
      Move.opposite_to ⟨⟨2, 2⟩, ⟨2, 3⟩⟩ = ⟨2, 1⟩ :=
  ⟨by decide, by simpa using opposite_to_point_reflection ⟨⟨2, 2⟩, ⟨2, 3⟩⟩ (by decide)⟩

/-- C10: indexing the map at a position whose coordinates may be negative
but no smaller than minus the corresponding dimension succeeds, reading the
row counted from the bottom edge when `x` is negative and the column counted
from the right edge when `y` is negative. -/
theorem mapGet_wraps_negative (m : List (List Nat)) (p : Position) (row : List Nat)
    (hx1 : -(m.length : Int) ≤ p.x) (hx2 : p.x < (m.length : Int))
    (hrow : m.get? (if p.x < 0 then ((m.length : Int) + p.x).toNat else p.x.toNat) = some row)
    (hy1 : -(row.length : Int) ≤ p.y) (hy2 : p.y < (row.length : Int)) :
    (mapGet m p).isSome ∧
      mapGet m p =
        row.get? (if p.y < 0 then ((row.length : Int) + p.y).toNat else p.y.toNat) := by
  have hm : mapGet m p =
      row.get? (if p.y < 0 then ((row.length : Int) + p.y).toNat else p.y.toNat) := by
    simp only [mapGet, pyGet, pyIdx_in_range m.length p.x hx1 hx2, hrow,
      pyIdx_in_range row.length p.y hy1 hy2]
  refine ⟨?_, hm⟩
  rw [hm]
  have hlt : (if p.y < 0 then ((row.length : Int) + p.y).toNat else p.y.toNat) <
      row.length := by
    split <;> omega
  rw [List.get?_eq_get hlt]
  rfl

/-- Witness for C10: in the 2×2 grid `[[1,2],[3,4]]` the probe `(-1,-1)` does
not fail and reads the bottom-right cell `4`. -/
theorem mapGet_wraps_negative_witness :
    (mapGet [[1, 2], [3, 4]] ⟨-1, -1⟩).isSome ∧
      mapGet [[1, 2], [3, 4]] ⟨-1, -1⟩ = some 4 := by
  have h := mapGet_wraps_negative [[1, 2], [3, 4]] ⟨-1, -1⟩ [3, 4]
    (by decide) (by decide) (by decide) (by decide) (by decide)
  exact ⟨h.1, by rw [h.2]; decide⟩

/-- C3: the claim that a target equal to the player's start cell is trivially
reachable FAILS on the code.  On the single-floor-cell puzzle `pzC3`, with
the target equal to the player's own cell `(1,1)`, `is_reachable` returns
`False`: the loop compares only freshly discovered neighbours against the
target, and the start cell is placed in `checked` after its first expansion,
so the start cell itself is never compared. -/
theorem is_reachable_start_target_false :
    pzC3.player = ⟨1, 1⟩ ∧ pzC3.is_reachable ⟨1, 1⟩ = some (false, pzC3) := by
  constructor
  · rfl
  · decide

/-- C6: the claim that `is_valid_move` never raises FAILS on the code.  On
the 2×3 all-floor grid `pzC6` (box on a floor cell in bounds, player on a
floor cell), pushing the box from `(1,1)` to `(2,1)` makes `is_valid_move`
raise `IndexError` (= `none`): the `all((...))` tuple evaluates
`puzzle_map[(2,1)]` eagerly even though a bounds clause is false, and the
bounds clauses compare `to.x` with the column count and `to.y` with the row
count, so `to = (2,1)` passes them while row 2 does not exist. -/
theorem is_valid_move_raises :
    (⟨1, 1⟩ : Position) ∈ pzC6.boxes ∧
      mapGet pzC6.puzzle_map ⟨1, 1⟩ = some 1 ∧
      mapGet pzC6.puzzle_map pzC6.player = some 1 ∧
      pzC6.is_valid_move ⟨⟨1, 1⟩, ⟨2, 1⟩⟩ = none := by
  refine ⟨by decide, by decide, by decide, by decide⟩

/-- C2: the claimed six-clause characterisation of `is_valid_move` FAILS on
the code.  In the walled scenario `pzC4`, pushing the box from `(2,2)`
rightward to `(2,3)` satisfies all six clauses as the spec words them — in
particular the pusher's standing cell `opposite_to = (2,1)` is the player's
own position, hence trivially reachable — yet `is_valid_move` returns
`False`, because its flood fill never recognises the start cell as
reachable. -/
theorem is_valid_move_not_spec_clauses :
    specLegalMove pzC4 ⟨⟨2, 2⟩, ⟨2, 3⟩⟩ ∧
      pzC4.is_valid_move ⟨⟨2, 2⟩, ⟨2, 3⟩⟩ = some false := by
  constructor
  · refine ⟨by decide, by decide, ⟨1, by decide, by decide⟩, ⟨1, ?_, by decide⟩,
      by decide, ?_⟩
    · decide
    · have h : Move.opposite_to ⟨⟨2, 2⟩, ⟨2, 3⟩⟩ = pzC4.player := by decide
      rw [h]
      exact Relation.ReflTransGen.refl
  · decide

/-- C4: the spec's end-to-end scenario FAILS on the code.  On `pzC4` the
successor set of the initial configuration is exactly the three
configurations where the box was pushed down, up or left (the player walking
around the box first), and it does NOT contain the spec's expected rightward
push (box at `(2,3)`, player at `(2,2)`), because the pusher's standing cell
for that push is the player's current cell and `is_reachable` never reports
it reachable. -/
theorem get_possible_states_scenario :
    pzC4.get_possible_states = some c4Produced ∧ c4Expected ∉ c4Produced := by
  refine ⟨by decide, by decide⟩

/-- Helper for C8: the flood-fill loop returns the threaded puzzle unchanged
whichever way it exits. -/
theorem bfsLoop_puzzle_eq (t : Position) :
    ∀ fuel (pz : Puzzle) q ch b pz',
      bfsLoop t fuel pz q ch = some (b, pz') → pz' = pz := by
  intro fuel
  induction fuel with
  | zero =>
    intro pz q ch b pz' h
    cases q with
    | nil =>
      simp only [bfsLoop, Option.some.injEq, Prod.mk.injEq] at h
      exact h.2.symm
    | cons p rest => simp [bfsLoop] at h
  | succ n ih =>
    intro pz q ch b pz' h
    cases q with
    | nil =>
      simp only [bfsLoop, Option.some.injEq, Prod.mk.injEq] at h
      exact h.2.symm
    | cons p rest =>
      simp only [bfsLoop] at h
      cases hs : scanNeighbours pz t ch rest p.neighbours with
      | none => rw [hs] at h; exact absurd h (by simp)
      | some r =>
        rw [hs] at h
        cases r with
        | inl q' => exact ih pz q' (insert p ch) b pz' h
        | inr f =>
          simp only [Option.some.injEq, Prod.mk.injEq] at h
          exact h.2.symm

/-- C8: `is_reachable` has no side effects: whenever it returns (rather than
raising), the puzzle it hands back — including the box set and the static
map — is exactly the puzzle it was given; the result is a pure function of
its inputs. -/
theorem is_reachable_pure (pz : Puzzle) (t : Position) (b : Bool) (pz' : Puzzle)
    (h : pz.is_reachable t = some (b, pz')) :
    pz' = pz ∧ pz'.boxes = pz.boxes ∧ pz'.puzzle_map = pz.puzzle_map := by
  have he : pz' = pz := bfsLoop_puzzle_eq t pz.fuel pz [pz.player] ∅ b pz' h
  exact ⟨he, by rw [he], by rw [he]⟩

/-- Witness for C8: on the concrete puzzle `pzC3` the flood fill returns and
hands back `pzC3` itself. -/
theorem is_reachable_pure_witness :
    pzC3 = pzC3 ∧ pzC3.boxes = pzC3.boxes ∧ pzC3.puzzle_map = pzC3.puzzle_map :=
  is_reachable_pure pzC3 ⟨1, 1⟩ false pzC3 (by decide)

/-- Membership in the set-semantics `add`. -/
theorem addState_mem (l : List State) (t s : State) :
    s ∈ addState l t ↔ s ∈ l ∨ s = t := by
  unfold addState
  split_ifs with h
  · constructor
    · exact fun hs => Or.inl hs
    · rintro (hs | rfl)
      · exact hs
      · exact h
  · simp [List.mem_append]

/-- The set-semantics `add` preserves freedom from duplicates. -/
theorem addState_nodup (l : List State) (t : State) (h : l.Nodup) :
    (addState l t).Nodup := by
  unfold addState
  split_ifs with ht
  · exact h
  · simpa [List.nodup_append, ht] using h

/-- Membership after folding a batch of successors into the accumulator. -/
theorem foldl_addState_mem (pz : Puzzle) (b : Position) (ds : List Position)
    (acc : List State) (s : State) :
    s ∈ ds.foldl (fun a d => addState a (mkSucc pz b d)) acc ↔
      s ∈ acc ∨ ∃ d ∈ ds, s = mkSucc pz b d := by
  induction ds generalizing acc with
  | nil => simp
  | cons d ds ih =>
    simp only [List.foldl_cons, ih, addState_mem, List.mem_cons]
    constructor
    · rintro ((hs | rfl) | ⟨d', hd', rfl⟩)
      · exact Or.inl hs
      · exact Or.inr ⟨d, Or.inl rfl, rfl⟩
      · exact Or.inr ⟨d', Or.inr hd', rfl⟩
    · rintro (hs | ⟨d', (rfl | hd'), rfl⟩)
      · exact Or.inl (Or.inl hs)
      · exact Or.inl (Or.inr rfl)
      · exact Or.inr ⟨d', hd', rfl⟩

/-- Folding a batch of successors preserves freedom from duplicates. -/
theorem foldl_addState_nodup (pz : Puzzle) (b : Position) (ds : List Position)
    (acc : List State) (h : acc.Nodup) :
    (ds.foldl (fun a d => addState a (mkSucc pz b d)) acc).Nodup := by
  induction ds generalizing acc with
  | nil => exact h
  | cons d ds ih => exact ih _ (addState_nodup _ _ h)

/-- Characterisation of the valid-destination comprehension. -/
theorem filterValid_mem (pz : Puzzle) (b : Position) :
    ∀ (ds l : List Position), filterValid pz b ds = some l →
      ∀ d, d ∈ l ↔ d ∈ ds ∧ pz.is_valid_move ⟨b, d⟩ = some true := by
  intro ds
  induction ds with
  | nil =>
    intro l h d
    simp only [filterValid, Option.some.injEq] at h
    subst h
    simp
  | cons d0 ds ih =>
    intro l h d
    simp only [filterValid] at h
    rcases hv : pz.is_valid_move ⟨b, d0⟩ with _ | b0
    · rw [hv] at h; cases h
    · rw [hv] at h
      cases b0 with
      | false =>
        simp only [List.mem_cons, ih l h d]
        constructor
        · rintro ⟨hd, ht⟩; exact ⟨Or.inr hd, ht⟩
        · rintro ⟨rfl | hd, ht⟩
          · rw [ht] at hv; simp at hv
          · exact ⟨hd, ht⟩
      | true =>
        rcases hrec : filterValid pz b ds with _ | l'
        · rw [hrec] at h; cases h
        · rw [hrec] at h
          simp only [Option.some.injEq] at h
          subst h
          simp only [List.mem_cons, ih l' hrec d]
          constructor
          · rintro (rfl | ⟨hd, ht⟩)
            · exact ⟨Or.inl rfl, hv⟩
            · exact ⟨Or.inr hd, ht⟩
          · rintro ⟨rfl | hd, ht⟩
            · exact Or.inl rfl
            · exact Or.inr ⟨hd, ht⟩

/-- Characterisation of the `for box in self.boxes` accumulation. -/
theorem gpsAux_mem (pz : Puzzle) :
    ∀ (bs : List Position) (acc l : List State), gpsAux pz bs acc = some l →
      ∀ s, s ∈ l ↔ s ∈ acc ∨ ∃ b ∈ bs, ∃ d ∈ b.neighbours,
        pz.is_valid_move ⟨b, d⟩ = some true ∧ s = mkSucc pz b d := by
  intro bs
  induction bs with
  | nil =>
    intro acc l h s
    simp only [gpsAux, Option.some.injEq] at h
    subst h
    simp
  | cons b bs ih =>
    intro acc l h s
    simp only [gpsAux] at h
    rcases hds : pz.get_possible_positions_for_box b with _ | ds
    · rw [hds] at h; cases h
    · rw [hds] at h
      have hds' := filterValid_mem pz b b.neighbours ds hds
      simp only [ih _ l h s, foldl_addState_mem, List.mem_cons]
      constructor
      · rintro ((hs | ⟨d, hd, rfl⟩) | ⟨b', hb', d, hd, ht, rfl⟩)
        · exact Or.inl hs
        · obtain ⟨hdn, hdt⟩ := (hds' d).mp hd
          exact Or.inr ⟨b, Or.inl rfl, d, hdn, hdt, rfl⟩
        · exact Or.inr ⟨b', Or.inr hb', d, hd, ht, rfl⟩
      · rintro (hs | ⟨b', (rfl | hb'), d, hd, ht, rfl⟩)
        · exact Or.inl (Or.inl hs)
        · exact Or.inl (Or.inr ⟨d, (hds' d).mpr ⟨hd, ht⟩, rfl⟩)
        · exact Or.inr ⟨b', hb', d, hd, ht, rfl⟩

/-- The sorted enumeration of a multiset has the same members. -/
theorem sortMultiset_mem (s : Multiset Position) (p : Position) :
    p ∈ sortMultiset s ↔ p ∈ s := by
  refine Quotient.inductionOn s fun l => ?_
  show p ∈ l.insertionSort posLe ↔ p ∈ (l : Multiset Position)
  rw [Multiset.mem_coe]
  exact (List.perm_insertionSort posLe l).mem_iff

/-- The sorted box enumeration has the same members as the box set. -/
theorem sortedBoxes_mem (pz : Puzzle) (b : Position) :
    b ∈ sortedBoxes pz ↔ b ∈ pz.boxes := by
  rw [sortedBoxes, sortMultiset_mem]
  rfl

/-- C5: the successor list records exactly the accepted pushes, each in the
claimed shape: a configuration is produced for a box `b` and an accepted
destination `d` among its neighbours, and that configuration carries box set
`(boxes - {b}) ∪ {d}` and player position `b` (the moved box's original
cell). -/
theorem get_possible_states_char (pz : Puzzle) (L : List State)
    (h : pz.get_possible_states = some L) (s : State) :
    s ∈ L ↔ ∃ b ∈ pz.boxes, ∃ d ∈ b.neighbours,
      pz.is_valid_move ⟨b, d⟩ = some true ∧
        s = ⟨insert d (pz.boxes.erase b), b⟩ := by
  rw [Puzzle.get_possible_states] at h
  have := gpsAux_mem pz (sortedBoxes pz) [] L h s
  simpa [sortedBoxes_mem, mkSucc] using this

/-- Witness for C5 at the walled scenario: the characterisation instantiated
at the produced push-down successor. -/
theorem get_possible_states_char_witness :
    (⟨{⟨3, 2⟩}, ⟨2, 2⟩⟩ : State) ∈ c4Produced ↔
      ∃ b ∈ pzC4.boxes, ∃ d ∈ b.neighbours,
        pzC4.is_valid_move ⟨b, d⟩ = some true ∧
          (⟨{⟨3, 2⟩}, ⟨2, 2⟩⟩ : State) = ⟨insert d (pzC4.boxes.erase b), b⟩ :=
  get_possible_states_char pzC4 c4Produced (by decide) ⟨{⟨3, 2⟩}, ⟨2, 2⟩⟩

/-- A cell is never its own neighbour. -/
theorem neighbour_ne (p d : Position) (h : d ∈ p.neighbours) : d ≠ p := by
  rcases p with ⟨px, py⟩
  rcases d with ⟨dx, dy⟩
  simp only [Position.neighbours, List.mem_cons, List.not_mem_nil, or_false,
    Position.mk.injEq] at h
  simp only [ne_eq, Position.mk.injEq, not_and]
  omega

/-- C9: every configuration produced by the successor generator keeps the
player off the boxes: the player lands on the pushed box's vacated cell,
which is neither the push destination nor any remaining box position. -/
theorem successors_player_not_in_boxes (pz : Puzzle) (L : List State)
    (h : pz.get_possible_states = some L) (s : State) (hs : s ∈ L) :
    s.player ∉ s.boxes := by
  rw [Puzzle.get_possible_states] at h
  rw [gpsAux_mem pz (sortedBoxes pz) [] L h s] at hs
  rcases hs with h0 | ⟨b, _, d, hd, _, rfl⟩
  · simp at h0
  · show (mkSucc pz b d).player ∉ (mkSucc pz b d).boxes
    simp only [mkSucc]
    rw [Finset.mem_insert]
    rintro (rfl | hmem)
    · exact neighbour_ne _ _ hd rfl
    · exact Finset.not_mem_erase _ _ hmem

/-- Witness for C9 at the walled scenario's push-down successor. -/
theorem successors_player_not_in_boxes_witness :
    (⟨2, 2⟩ : Position) ∉ ({⟨3, 2⟩} : Finset Position) :=
  successors_player_not_in_boxes pzC4 c4Produced (by decide)
    ⟨{⟨3, 2⟩}, ⟨2, 2⟩⟩ (by decide)

/-- Assigning a key absent from the dict appends the pair. -/
theorem dsetG_fresh (g : Graph) (k : State) (v : List State) (h : k ∉ keysG g) :
    dsetG g k v = g ++ [(k, v)] := by
  induction g with
  | nil => rfl
  | cons kv rest ih =>
    rcases kv with ⟨k', v'⟩
    simp only [keysG, List.map_cons, List.mem_cons] at h
    push_neg at h
    have hne : ¬(k' = k) := fun he => h.1 he.symm
    simp only [dsetG, if_neg hne, List.cons_append, List.cons.injEq, true_and]
    exact ih h.2

/-- A successful lookup is a recorded entry. -/
theorem lookupG_mem (g : Graph) (s : State) (v : List State)
    (h : lookupG g s = some v) : (s, v) ∈ g := by
  induction g with
  | nil => cases h
  | cons kv rest ih =>
    rcases kv with ⟨k', v'⟩
    simp only [lookupG] at h
    split_ifs at h with he
    · subst he
      simp only [Option.some.injEq] at h
      subst h
      exact List.mem_cons_self _ _
    · exact List.mem_cons_of_mem _ (ih h)

/-- Key membership is lookup success. -/
theorem mem_keysG_lookup (g : Graph) (s : State) (h : s ∈ keysG g) :
    ∃ v, lookupG g s = some v := by
  induction g with
  | nil => cases h
  | cons kv rest ih =>
    rcases kv with ⟨k', v'⟩
    simp only [keysG, List.map_cons, List.mem_cons] at h
    by_cases he : k' = s
    · exact ⟨v', by simp [lookupG, he]⟩
    · rcases h with rfl | h
      · exact absurd rfl he
      · obtain ⟨v, hv⟩ := ih h
        exact ⟨v, by simp [lookupG, he, hv]⟩

/-- Membership in the enqueue fold: an element ends up queued iff it was
queued already, or is a fresh successor that is not a dict key. -/
theorem enqueue_mem (g : Graph) :
    ∀ (ts q : List State) (s : State),
      s ∈ enqueue g q ts ↔ s ∈ q ∨ (s ∈ ts ∧ s ∉ keysG g) := by
  intro ts
  induction ts with
  | nil =>
    intro q s
    simp [enqueue]
  | cons t ts ih =>
    intro q s
    simp only [enqueue]
    rw [ih]
    by_cases hc : t ∈ q ∨ memG g t
    · rw [if_pos hc]
      unfold memG at hc
      simp only [List.mem_cons]
      constructor
      · rintro (hq | ⟨hts, hk⟩)
        · exact Or.inl hq
        · exact Or.inr ⟨Or.inr hts, hk⟩
      · rintro (hq | ⟨rfl | hts, hk⟩)
        · exact Or.inl hq
        · rcases hc with hq | hkey
          · exact Or.inl hq
          · exact absurd hkey hk
        · exact Or.inr ⟨hts, hk⟩
    · rw [if_neg hc]
      push_neg at hc
      unfold memG at hc
      simp only [List.mem_cons]
      constructor
      · rintro ((rfl | hq) | ⟨hts, hk⟩)
        · exact Or.inr ⟨Or.inl rfl, hc.2⟩
        · exact Or.inl hq
        · exact Or.inr ⟨Or.inr hts, hk⟩
      · rintro (hq | ⟨rfl | hts, hk⟩)
        · exact Or.inl (Or.inr hq)
        · exact Or.inl (Or.inl rfl)
        · exact Or.inr ⟨hts, hk⟩

/-- The enqueue fold keeps the queue free of duplicates. -/
theorem enqueue_nodup (g : Graph) :
    ∀ (ts q : List State), q.Nodup → (enqueue g q ts).Nodup := by
  intro ts
  induction ts with
  | nil => intro q h; exact h
  | cons t ts ih =>
    intro q h
    simp only [enqueue]
    by_cases hc : t ∈ q ∨ memG g t
    · rw [if_pos hc]; exact ih q h
    · rw [if_neg hc]
      push_neg at hc
      exact ih _ (List.nodup_cons.mpr ⟨hc.1, h⟩)

/-- The accumulation of `get_possible_states` keeps the successor list free
of duplicates. -/
theorem gpsAux_nodup (pz : Puzzle) :
    ∀ (bs : List Position) (acc l : List State),
      gpsAux pz bs acc = some l → acc.Nodup → l.Nodup := by
  intro bs
  induction bs with
  | nil =>
    intro acc l h ha
    simp only [gpsAux, Option.some.injEq] at h
    subst h
    exact ha
  | cons b bs ih =>
    intro acc l h ha
    simp only [gpsAux] at h
    rcases hds : pz.get_possible_positions_for_box b with _ | ds
    · rw [hds] at h; cases h
    · rw [hds] at h
      exact ih _ l h (foldl_addState_nodup pz b ds acc ha)

/-- The generated successor list is free of duplicates. -/
theorem gps_nodup (pz : Puzzle) (L : List State)
    (h : pz.get_possible_states = some L) : L.Nodup :=
  gpsAux_nodup pz (sortedBoxes pz) [] L h List.nodup_nil

/-- An accepted move's destination holds no box (clause three of the code's
conjunction). -/
theorem is_valid_move_true_to_free (pz : Puzzle) (m : Move)
    (h : pz.is_valid_move m = some true) : m.to ∉ pz.boxes := by
  unfold Puzzle.is_valid_move at h
  rcases hv : mapGet pz.puzzle_map m.to with _ | v
  · rw [hv] at h; cases h
  · rw [hv] at h
    rcases hu : mapGet pz.puzzle_map m.opposite_to with _ | u
    · rw [hu] at h; cases h
    · rw [hu] at h
      rcases hr : pz.is_reachable m.opposite_to with _ | rp
      · rw [hr] at h; cases h
      · rcases rp with ⟨r, pzr⟩
        rw [hr] at h
        simp only [Option.some.injEq] at h
        have := of_decide_eq_true h
        exact this.2.2.1

/-- A generated successor's box set differs from the current box set: the
push destination is a box of the successor but not of the source. -/
theorem gps_mem_boxes_ne (pz : Puzzle) (L : List State)
    (h : pz.get_possible_states = some L) (t : State) (ht : t ∈ L) :
    t.boxes ≠ pz.boxes := by
  rw [Puzzle.get_possible_states] at h
  rw [gpsAux_mem pz (sortedBoxes pz) [] L h t] at ht
  rcases ht with h0 | ⟨b, _, d, _, hvm, rfl⟩
  · simp at h0
  · intro hb
    have hd : d ∈ (mkSucc pz b d).boxes := Finset.mem_insert_self _ _
    rw [hb] at hd
    exact is_valid_move_true_to_free pz ⟨b, d⟩ hvm hd

/-- Installing the configuration already on the puzzle changes nothing. -/
theorem stepPz_state (pz : Puzzle) : stepPz pz pz.state = pz := by
  cases pz
  rfl

/-- The worklist invariant of `traverse_states`, in one sweep: if the loop
finishes, then (recorded values are the successor sets; every recorded
successor is a key; the keys carry no duplicates; every key is reachable;
the final keys are the initial keys plus the expansion log; the log carries
no duplicates and no initial key).  The hypotheses are the invariant at
entry. -/
theorem traverse_master (pz : Puzzle) :
    ∀ (fuel : Nat) (g : Graph) (q : List State) (gf : Graph) (log : List State),
      traverse_states pz fuel g q = some (gf, log) →
      (∀ kv ∈ g, (stepPz pz kv.1).get_possible_states = some kv.2) →
      (∀ kv ∈ g, ∀ t ∈ kv.2, t ∈ keysG g ∨ t ∈ q) →
      (keysG g).Nodup →
      q.Nodup →
      (∀ t ∈ q, t ∉ keysG g) →
      (∀ t ∈ q, ReachState pz t) →
      (∀ k ∈ keysG g, ReachState pz k) →
      (∀ kv ∈ gf, (stepPz pz kv.1).get_possible_states = some kv.2) ∧
        (∀ kv ∈ gf, ∀ t ∈ kv.2, t ∈ keysG gf) ∧
        (keysG gf).Nodup ∧
        (∀ k ∈ keysG gf, ReachState pz k) ∧
        (∀ s, s ∈ keysG gf ↔ s ∈ keysG g ∨ s ∈ log) ∧
        log.Nodup ∧
        (∀ s ∈ log, s ∉ keysG g) := by
  intro fuel
  induction fuel with
  | zero =>
    intro g q gf log h hI1 hI2 hI3 _ _ _ hI7
    cases q with
    | nil =>
      simp only [traverse_states, Option.some.injEq, Prod.mk.injEq] at h
      obtain ⟨rfl, rfl⟩ := h
      refine ⟨hI1, ?_, hI3, hI7, ?_, List.nodup_nil, ?_⟩
      · intro kv hkv t ht
        rcases hI2 kv hkv t ht with hk | hq
        · exact hk
        · cases hq
      · intro s; simp
      · intro s hs; cases hs
    | cons s q => simp [traverse_states] at h
  | succ n ih =>
    intro g q gf log h hI1 hI2 hI3 hI4 hI5 hI6 hI7
    cases q with
    | nil =>
      simp only [traverse_states, Option.some.injEq, Prod.mk.injEq] at h
      obtain ⟨rfl, rfl⟩ := h
      refine ⟨hI1, ?_, hI3, hI7, ?_, List.nodup_nil, ?_⟩
      · intro kv hkv t ht
        rcases hI2 kv hkv t ht with hk | hq
        · exact hk
        · cases hq
      · intro s; simp
      · intro s hs; cases hs
    | cons s q =>
      simp only [traverse_states] at h
      split at h
      · cases h
      · rename_i succs hgps
        split at h
        · cases h
        · rename_i gf' log' hrec
          simp only [Option.some.injEq, Prod.mk.injEq] at h
          obtain ⟨rfl, rfl⟩ := h
          have hsq : s ∉ keysG g := hI5 s (List.mem_cons_self s q)
          obtain ⟨hsnq, hqn⟩ := List.nodup_cons.mp hI4
          have hgeq : dsetG g s succs = g ++ [(s, succs)] := dsetG_fresh g s succs hsq
          have hkeys : keysG (dsetG g s succs) = keysG g ++ [s] := by
            rw [hgeq]; simp [keysG]
          have hI1' : ∀ kv ∈ dsetG g s succs,
              (stepPz pz kv.1).get_possible_states = some kv.2 := by
            rw [hgeq]
            intro kv hkv
            rcases List.mem_append.mp hkv with h1 | h2
            · exact hI1 kv h1
            · rw [List.mem_singleton] at h2
              subst h2
              exact hgps
          have hI2' : ∀ kv ∈ dsetG g s succs, ∀ t ∈ kv.2,
              t ∈ keysG (dsetG g s succs) ∨ t ∈ enqueue (dsetG g s succs) q succs := by
            intro kv hkv t ht
            rw [hgeq] at hkv
            rcases List.mem_append.mp hkv with h1 | h2
            · rcases hI2 kv h1 t ht with hk | hq
              · left; rw [hkeys]; exact List.mem_append_left _ hk
              · rcases List.mem_cons.mp hq with rfl | hq'
                · left; rw [hkeys]
                  exact List.mem_append_right _ (List.mem_singleton_self t)
                · right; exact (enqueue_mem _ _ _ _).mpr (Or.inl hq')
            · rw [List.mem_singleton] at h2
              subst h2
              by_cases hk : t ∈ keysG (dsetG g s succs)
              · exact Or.inl hk
              · exact Or.inr ((enqueue_mem _ _ _ _).mpr (Or.inr ⟨ht, hk⟩))
          have hI3' : (keysG (dsetG g s succs)).Nodup := by
            rw [hkeys]
            refine hI3.append (List.nodup_singleton s) ?_
            intro a ha hb
            rw [List.mem_singleton] at hb
            subst hb
            exact hsq ha
          have hI4' : (enqueue (dsetG g s succs) q succs).Nodup :=
            enqueue_nodup _ _ _ hqn
          have hI5' : ∀ t ∈ enqueue (dsetG g s succs) q succs,
              t ∉ keysG (dsetG g s succs) := by
            intro t ht
            rcases (enqueue_mem _ _ _ _).mp ht with htq | ⟨_, htk⟩
            · rw [hkeys]
              intro hmem
              rcases List.mem_append.mp hmem with hmg | hms
              · exact hI5 t (List.mem_cons_of_mem s htq) hmg
              · rw [List.mem_singleton] at hms
                subst hms
                exact hsnq htq
            · exact htk
          have hI6' : ∀ t ∈ enqueue (dsetG g s succs) q succs, ReachState pz t := by
            intro t ht
            rcases (enqueue_mem _ _ _ _).mp ht with htq | ⟨hts, _⟩
            · exact hI6 t (List.mem_cons_of_mem s htq)
            · exact Relation.ReflTransGen.tail (hI6 s (List.mem_cons_self s q))
                ⟨succs, hgps, hts⟩
          have hI7' : ∀ k ∈ keysG (dsetG g s succs), ReachState pz k := by
            intro k hk
            rw [hkeys] at hk
            rcases List.mem_append.mp hk with hkg | hks
            · exact hI7 k hkg
            · rw [List.mem_singleton] at hks
              subst hks
              exact hI6 k (List.mem_cons_self k q)
          obtain ⟨hC1, hC2, hC3, hC4, hC5, hC6, hC7⟩ :=
            ih (dsetG g s succs) (enqueue (dsetG g s succs) q succs) gf' log'
              hrec hI1' hI2' hI3' hI4' hI5' hI6' hI7'
          refine ⟨hC1, hC2, hC3, hC4, ?_, ?_, ?_⟩
          · intro s'
            rw [hC5 s', hkeys]
            simp only [List.mem_append, List.mem_singleton, List.mem_cons]
            tauto
          · refine List.nodup_cons.mpr ⟨?_, hC6⟩
            intro hs
            refine hC7 s hs ?_
            rw [hkeys]
            exact List.mem_append_right _ (List.mem_singleton_self s)
          · intro x hx
            rcases List.mem_cons.mp hx with rfl | hx'
            · exact hsq
            · intro hxg
              refine hC7 x hx' ?_
              rw [hkeys]
              exact List.mem_append_left _ hxg

/-- C1: after a completed run (the `__init__` seeding followed by
`traverse_states`), the states dict is exactly the set of configurations
reachable from the initial configuration by legal pushes: every key's
recorded successor set is the successor set the generator computes for it,
every recorded successor is itself a key (no dangling successors), the keys
are exactly the reachable configurations, and the expansions — the seeding
plus the loop's expansion log — are pairwise distinct and exactly cover the
keys, so no configuration is expanded twice. -/
theorem buildGraph_correct (pz : Puzzle) (fuel : Nat) (gf : Graph) (log : List State)
    (h : buildGraph pz fuel = some (gf, log)) :
    (∀ s S, lookupG gf s = some S → (stepPz pz s).get_possible_states = some S) ∧
      (∀ s S, lookupG gf s = some S → ∀ t ∈ S, t ∈ keysG gf) ∧
      (∀ s, s ∈ keysG gf ↔ ReachState pz s) ∧
      (keysG gf).Nodup ∧
      (pz.state :: log).Nodup ∧
      (∀ s, s ∈ keysG gf ↔ s = pz.state ∨ s ∈ log) := by
  unfold buildGraph at h
  split at h
  · cases h
  · rename_i g0 q0 hinit
    unfold initStates at hinit
    split at hinit
    · cases hinit
    · rename_i S0 hS0
      simp only [Option.some.injEq, Prod.mk.injEq] at hinit
      obtain ⟨rfl, rfl⟩ := hinit
      have hgps0 : (stepPz pz pz.state).get_possible_states = some S0 := by
        rw [stepPz_state]; exact hS0
      have hI1 : ∀ kv ∈ [(pz.state, S0)],
          (stepPz pz kv.1).get_possible_states = some kv.2 := by
        intro kv hkv
        rw [List.mem_singleton] at hkv
        subst hkv
        exact hgps0
      have hI2 : ∀ kv ∈ [(pz.state, S0)], ∀ t ∈ kv.2,
          t ∈ keysG [(pz.state, S0)] ∨ t ∈ S0.reverse := by
        intro kv hkv t ht
        rw [List.mem_singleton] at hkv
        subst hkv
        exact Or.inr (List.mem_reverse.mpr ht)
      have hI3 : (keysG [(pz.state, S0)]).Nodup := by simp [keysG]
      have hI4 : S0.reverse.Nodup := List.nodup_reverse.mpr (gps_nodup pz S0 hS0)
      have hne : ∀ t ∈ S0, t ≠ pz.state := by
        intro t ht heq
        exact gps_mem_boxes_ne pz S0 hS0 t ht (by rw [heq]; rfl)
      have hI5 : ∀ t ∈ S0.reverse, t ∉ keysG [(pz.state, S0)] := by
        intro t ht hk
        simp only [keysG, List.map_cons, List.map_nil, List.mem_singleton] at hk
        exact hne t (List.mem_reverse.mp ht) hk
      have hI6 : ∀ t ∈ S0.reverse, ReachState pz t := by
        intro t ht
        exact Relation.ReflTransGen.single ⟨S0, hgps0, List.mem_reverse.mp ht⟩
      have hI7 : ∀ k ∈ keysG [(pz.state, S0)], ReachState pz k := by
        intro k hk
        simp only [keysG, List.map_cons, List.map_nil, List.mem_singleton] at hk
        subst hk
        exact Relation.ReflTransGen.refl
      obtain ⟨hC1, hC2, hC3, hC4, hC5, hC6, hC7⟩ :=
        traverse_master pz fuel [(pz.state, S0)] S0.reverse gf log h
          hI1 hI2 hI3 hI4 hI5 hI6 hI7
      have hkeys0 : keysG [(pz.state, S0)] = [pz.state] := by simp [keysG]
      refine ⟨?_, ?_, ?_, hC3, ?_, ?_⟩
      · intro s S hS
        exact hC1 (s, S) (lookupG_mem gf s S hS)
      · intro s S hS t ht
        exact hC2 (s, S) (lookupG_mem gf s S hS) t ht
      · intro s
        constructor
        · exact hC4 s
        · intro hr
          induction hr with
          | refl =>
            rw [hC5 pz.state, hkeys0]
            exact Or.inl (List.mem_singleton_self _)
          | @tail b c _ hbc ihb =>
            obtain ⟨v, hv⟩ := mem_keysG_lookup gf b ihb
            have hvv := hC1 (b, v) (lookupG_mem gf b v hv)
            obtain ⟨S', hS', hcS'⟩ := hbc
            rw [hvv] at hS'
            have hveq : v = S' := Option.some.inj hS'
            exact hC2 (b, v) (lookupG_mem gf b v hv) c (by rw [hveq]; exact hcS')
      · refine List.nodup_cons.mpr ⟨?_, hC6⟩
        intro hs
        have hmem := hC7 pz.state hs
        rw [hkeys0] at hmem
        exact hmem (List.mem_singleton_self _)
      · intro s
        rw [hC5 s, hkeys0]
        simp [List.mem_singleton, List.mem_cons]

/-- Witness for C1: a completed run on the single-cell puzzle `pzC3`
produces the one-node graph with no loop expansions, and the conclusions of
the correctness theorem hold for it. -/
theorem buildGraph_correct_witness :
    (∀ s S, lookupG [((⟨∅, ⟨1, 1⟩⟩ : State), ([] : List State))] s = some S →
        (stepPz pzC3 s).get_possible_states = some S) ∧
      (∀ s S, lookupG [((⟨∅, ⟨1, 1⟩⟩ : State), ([] : List State))] s = some S →
        ∀ t ∈ S, t ∈ keysG [((⟨∅, ⟨1, 1⟩⟩ : State), ([] : List State))]) ∧
      (∀ s, s ∈ keysG [((⟨∅, ⟨1, 1⟩⟩ : State), ([] : List State))] ↔
        ReachState pzC3 s) ∧
      (keysG [((⟨∅, ⟨1, 1⟩⟩ : State), ([] : List State))]).Nodup ∧
      (pzC3.state :: ([] : List State)).Nodup ∧
      (∀ s, s ∈ keysG [((⟨∅, ⟨1, 1⟩⟩ : State), ([] : List State))] ↔
        s = pzC3.state ∨ s ∈ ([] : List State)) :=
  buildGraph_correct pzC3 1 [((⟨∅, ⟨1, 1⟩⟩ : State), ([] : List State))] []
    (by decide)
